import Mathlib

set_option linter.unusedVariables false
set_option maxHeartbeats 1000000

/-!
Shallow embedding of the phyloRNA helper scripts
(`inst/vcm.py`, `inst/vff_make.py`, `inst/vff_merge.py`)
and verification of the specification claims about them.

Python values that may be `None` are modelled with `Option`; Python
exceptions with `Except PyErr`; writes to `sys.stderr` are collected in a
`List String` component of the result (only strings can actually be
written: `sys.stderr.write` raises `TypeError` on any other argument).
-/

namespace PhyloRNA

/-- The kinds of Python exception the embedded code can raise. -/
inductive PyErr where
  | typeError
  | indexError
  | valueError
  | variantReadError
deriving DecidableEq

/-- The `Read` namedtuple of `vcm.py` (line 80): `cb, aligned_pairs,
query_sequence`.  `aligned_pairs` is a list of
`(query_offset, reference_position)` pairs where either side may be Python
`None`; `query_sequence` is modelled as its list of characters. -/
structure Read where
  cb : String
  aligned_pairs : List (Option Nat × Option Nat)
  query_sequence : List Char
deriving DecidableEq

/-- The `Variant` namedtuple of `vcm.py` (line 79). -/
structure Variant where
  contig : String
  pos : Nat
  ref : String
  start : Nat
  stop : Nat
deriving DecidableEq

/-- An argument passed to `sys.stderr.write`: either a string, or (as in the
call at `vcm.py` line 259) a whole `Read` tuple. -/
inductive WriteArg where
  | ofStr (s : String)
  | ofRead (r : Read)

/-- `sys.stderr.write` writes strings; handed any non-string object it raises
`TypeError` and writes nothing.  The first component is the list of strings
actually written. -/
def stderr_write : WriteArg → List String × Except PyErr Unit
  | .ofStr s => ([s], .ok ())
  | .ofRead _ => ([], .error .typeError)

namespace Vcm

/-- `vcm.get_base` (vcm.py lines 253-260): scan the aligned pairs for the
requested reference position and return the query base there (`none` = the
position is deleted in this read).  When the position is absent from the
pairs the source executes `sys.stderr.write(read)` — `read` is a namedtuple,
not a string, so that call raises `TypeError` before the
`raise VariantReadError(...)` line is reached. -/
def get_base (read : Read) (position : Nat) :
    List String × Except PyErr (Option Char) :=
  match read.aligned_pairs.find? (fun pr => pr.2 == some position) with
  | some pr =>
    match pr.1 with
    | some i =>
      match read.query_sequence.get? i with
      | some ch => ([], .ok (some ch))
      | none => ([], .error .indexError)
    | none => ([], .ok none)
  | none =>
    match stderr_write (.ofRead read) with
    | (d, .error e) => (d, .error e)
    | (d, .ok _) => (d, .error .variantReadError)

/-- The comprehension `[get_base(read, variant.start) for read in reads]`
(vcm.py line 234), evaluated left to right, aborting at the first
exception. -/
def get_base_list (reads : List Read) (position : Nat) :
    List String × Except PyErr (List (Option Char)) :=
  match reads with
  | [] => ([], .ok [])
  | r :: rest =>
    match get_base r position with
    | (d, .error e) => (d, .error e)
    | (d, .ok b) =>
      match get_base_list rest position with
      | (d2, .error e) => (d ++ d2, .error e)
      | (d2, .ok bs) => (d ++ d2, .ok (b :: bs))

end Vcm

/-- The distinct values of a list in order of first occurrence: the key order
of a Python `collections.Counter` built by counting the list. -/
def pyKeys {α : Type} [DecidableEq α] : List α → List α
  | [] => []
  | x :: xs => x :: (pyKeys xs).filter (fun y => decide (y ≠ x))

/-- The multiplicity of `a` in `l`. -/
def pyCount {α : Type} [DecidableEq α] (a : α) (l : List α) : Nat :=
  (l.filter (fun x => decide (x = a))).length

/-- `collections.Counter(l)` as an association list: the distinct keys in
first-occurrence order, each with its multiplicity in `l`. -/
def counterItems {α : Type} [DecidableEq α] (l : List α) : List (α × Nat) :=
  (pyKeys l).map (fun k => (k, pyCount k l))

/-- Insert an entry into a count-sorted (descending) list, before the first
entry with a smaller-or-equal count: one step of the stable descending sort
performed by `Counter.most_common`. -/
def insertDesc {α : Type} (p : α × Nat) : List (α × Nat) → List (α × Nat)
  | [] => [p]
  | q :: t => if q.2 ≤ p.2 then p :: q :: t else q :: insertDesc p t

/-- Stable sort by count, descending — the order produced by
`Counter.most_common` (CPython sorts the items by count descending with a
stable sort, so tied counts keep their first-insertion order). -/
def sortDesc {α : Type} : List (α × Nat) → List (α × Nat)
  | [] => []
  | p :: t => insertDesc p (sortDesc t)

/-- `collections.Counter(l).most_common n`. -/
def most_common {α : Type} [DecidableEq α] (l : List α) (n : Nat) :
    List (α × Nat) :=
  (sortDesc (counterItems l)).take n

namespace Vcm

/-- Lines 238-250 of `vcm.get_most_common_base`, operating on the already
resolved observations (`none` = deletion / `NoBase`).  The result `some s`
models the Python function returning the string `s`; the result `none`
models it returning Python `None`, which lines 245-250 do exactly when the
second-ranked counter key is `None` (`return most_common[1][0]`). -/
def most_common_base_of (bases : List (Option Char)) (unknown : String)
    (min_coverage : Nat) : Option String :=
  if bases.length < min_coverage then some unknown
  else
    match most_common bases 2 with
    | [] => some unknown
    | (some c, _) :: _ => some (String.singleton c)
    | (none, _) :: rest =>
      match rest with
      | [] => some unknown
      | (k, _) :: _ => k.map String.singleton

/-- `vcm.variant_to_text` (vcm.py lines 285-289). -/
def variant_to_text (v : Variant) : String :=
  "Variant (contig, start, stop, position, ref, value):\n"
    ++ v.contig ++ " " ++ toString v.start ++ " " ++ toString v.stop ++ " "
    ++ toString v.pos ++ " " ++ v.ref ++ "\n"

/-- `vcm.get_most_common_base` (vcm.py lines 231-250): resolve each read's
base at the variant position; if that raises `VariantReadError`, write the
variant context to stderr and re-raise (any other exception propagates
without being caught); otherwise select the most common base. -/
def get_most_common_base (reads : List Read) (variant : Variant)
    (unknown : String) (min_coverage : Nat) :
    List String × Except PyErr (Option String) :=
  match get_base_list reads variant.start with
  | (d, .error .variantReadError) =>
      (d ++ [variant_to_text variant], .error .variantReadError)
  | (d, .error e) => (d, .error e)
  | (d, .ok bases) => (d, .ok (most_common_base_of bases unknown min_coverage))

/-- `vcm.get_reads_with_barcode` (vcm.py lines 226-228). -/
def get_reads_with_barcode (reads : List Read) (barcode : String) :
    List Read :=
  reads.filter (fun r => r.cb == barcode)

/-- `vcm.process_barcode` (vcm.py lines 206-210). -/
def process_barcode (barcode : String) (reads : List Read) (variant : Variant)
    (min_coverage : Nat) : List String × Except PyErr (Option String) :=
  get_most_common_base (get_reads_with_barcode reads barcode) variant "N"
    min_coverage

/-- The comprehension
`[process_barcode(barcode, reads, variant, min_coverage) for barcode in barcodes]`
(vcm.py line 151), evaluated left to right, aborting at the first
exception. -/
def process_barcodes (barcodes : List String) (reads : List Read)
    (variant : Variant) (min_coverage : Nat) :
    List String × Except PyErr (List (Option String)) :=
  match barcodes with
  | [] => ([], .ok [])
  | b :: rest =>
    match process_barcode b reads variant min_coverage with
    | (d, .error e) => (d, .error e)
    | (d, .ok s) =>
      match process_barcodes rest reads variant min_coverage with
      | (d2, .error e) => (d ++ d2, .error e)
      | (d2, .ok ss) => (d ++ d2, .ok (s :: ss))

/-- `vcm.vcm_line` (vcm.py lines 273-276): `"\t".join(bases)` joins strings;
a Python `None` among the calls would raise `TypeError`. -/
def vcm_line (variant : Variant) (bases : List (Option String)) :
    Except PyErr String :=
  match bases.mapM (fun x => x) with
  | some ss =>
      .ok (variant.contig ++ "\t" ++ toString variant.pos ++ "\t" ++ variant.ref
        ++ "\t" ++ String.intercalate "\t" ss ++ "\n")
  | none => .error .typeError

/-- A raw read as fetched from the BAM file, before the `read2tuple`
projection: the fields `process_variant` inspects (`has_tag("CB")` modelled
by `cb.isSome`, and `mapping_quality`), plus those that `read2tuple`
extracts. -/
structure BamRead where
  cb : Option String
  mapping_quality : Nat
  aligned_pairs : List (Option Nat × Option Nat)
  query_sequence : List Char

/-- `vcm.read2tuple` (vcm.py lines 183-191).  It is only applied to reads
that passed the `has_tag("CB")` filter, so the `""` default is never used. -/
def read2tuple (r : BamRead) : Read :=
  ⟨r.cb.getD "", r.aligned_pairs, r.query_sequence⟩

/-- `vcm.process_variant` (vcm.py lines 142-153) with the BAM fetch replaced
by the list of fetched reads: keep only reads that carry a CB tag and have
mapping quality at least `min_mapq`, project them with `read2tuple`, compute
one consensus call per barcode and format the output line. -/
def process_variant (fetched : List BamRead) (variant : Variant)
    (barcodes : List String) (min_coverage min_mapq : Nat) :
    List String × Except PyErr String :=
  let reads := (fetched.filter
      (fun r => r.cb.isSome && decide (min_mapq ≤ r.mapping_quality))).map
    read2tuple
  match process_barcodes barcodes reads variant min_coverage with
  | (d, .error e) => (d, .error e)
  | (d, .ok bases) =>
    match vcm_line variant bases with
    | .ok line => (d, .ok line)
    | .error e => (d, .error e)

/-- `vcm.calculate_chunksize` (vcm.py lines 194-203): ceiling division of the
batch length by `n_workers * factor`, implemented with `divmod`.  Both
`--nthreads` and `--factor` are validated by `intplus` to be strictly
positive, so the Python `ZeroDivisionError` at `n_workers * factor = 0`
(where Lean's `Nat` division returns 0) is unreachable. -/
def calculate_chunksize (n_workers len_iterable factor : Nat) : Nat :=
  let chunksize := len_iterable / (n_workers * factor)
  let extra := len_iterable % (n_workers * factor)
  if extra ≠ 0 then chunksize + 1 else chunksize

/-- The adaptive chunksize assignment in `vcm.main` (vcm.py line 117):
`args.chunksize = calculate_chunksize(args.nthreads, len(variants))`.
The parsed `--factor` option is not passed on, so the call always runs with
the Python default `factor=4`, whatever value was configured. -/
def main_adaptive_chunksize (nthreads configured_factor batch_len : Nat) :
    Nat :=
  calculate_chunksize nthreads batch_len 4

end Vcm

namespace VffMake

/-- `vff_make.empty_counter` with its default `bases="ACGT"` (vff_make.py
lines 144-146): a counter keyed by the four bases, each with count 0, in
that insertion order.  A counter is modelled as an association list in key
insertion order; `some c` is the one-character string of `c`, `none` is
Python `None`. -/
def empty_counter : List (Option Char × Nat) :=
  [(some 'A', 0), (some 'C', 0), (some 'G', 0), (some 'T', 0)]

/-- Count one observation into a counter: increment an existing key or
append a new key with count 1 (Python dicts keep insertion order). -/
def counterAdd (acc : List (Option Char × Nat)) (b : Option Char) :
    List (Option Char × Nat) :=
  match acc with
  | [] => [(b, 1)]
  | (k, n) :: t => if k = b then (k, n + 1) :: t else (k, n) :: counterAdd t b

/-- `frequencies.update(read_bases)` (vff_make.py line 140): count every
element of the iterable into the counter. -/
def counter_update (c : List (Option Char × Nat))
    (obs : List (Option Char)) : List (Option Char × Nat) :=
  obs.foldl counterAdd c

/-- The counting part of `vff_make.get_base_frequencies_for_variant`
(vff_make.py lines 129-141), given the already resolved per-read bases
(`none` = deletion / `NoBase`): initialise zero counts for `"ACGT"`, then
count every observation — including `None` and any base outside `ACGT`. -/
def get_base_frequencies (read_bases : List (Option Char)) :
    List (Option Char × Nat) :=
  counter_update empty_counter read_bases

/-- `frequencies[base]`: a `collections.Counter` returns 0 for a missing
key. -/
def counterGet (c : List (Option Char × Nat)) (k : Option Char) : Nat :=
  match c.find? (fun p => decide (p.1 = k)) with
  | some p => p.2
  | none => 0

/-- The base-column order used for the written data rows: the `bases`
default `"ACGT"` of `vff_make.vff_line` (vff_make.py line 173). -/
def line_bases : List Char := ['A', 'C', 'G', 'T']

/-- The base-column order declared by the header: the `bases` default
`"ACTG"` of `vff_make.vff_header` (vff_make.py line 179). -/
def header_bases : List Char := ['A', 'C', 'T', 'G']

/-- The `freqlist` of `vff_make.vff_base_frequency_string` (vff_make.py
lines 159-163): the count of each base of `bases` in order, with
`sum(frequencies.values())` appended. -/
def vff_freqlist (bases : List Char) (freq : List (Option Char × Nat)) :
    List Nat :=
  bases.map (fun b => counterGet freq (some b)) ++ [(freq.map Prod.snd).sum]

/-- `vff_make.vff_base_frequency_string` (vff_make.py lines 159-163). -/
def vff_base_frequency_string (bases : List Char)
    (freq : List (Option Char × Nat)) : String :=
  String.intercalate "\t" ((vff_freqlist bases freq).map toString)

/-- `vff_make.vff_line` (vff_make.py lines 173-176) with its default
`bases="ACGT"`. -/
def vff_line (variant : Variant) (freq : List (Option Char × Nat)) :
    String :=
  variant.contig ++ "\t" ++ toString variant.pos ++ "\t" ++ variant.ref
    ++ "\t" ++ vff_base_frequency_string line_bases freq ++ "\n"

/-- `vff_make.vff_header` (vff_make.py lines 179-182) with its default
`bases="ACTG"`. -/
def vff_header : String :=
  "Contig\tPosition\tReference\t"
    ++ String.intercalate "\t" (header_bases.map String.singleton)
    ++ "\tTotal\n"

end VffMake

namespace VffMerge

/-- The `VFFline` namedtuple of `vff_merge.py` (lines 32-35).  The Python
fields hold raw tab-separated strings; the count and coverage fields are
modelled after the `int(...)` conversions that `get_base` and
`get_max_base_freq` apply to them. -/
structure VFFline where
  Contig : String
  Position : String
  Reference : String
  A : Nat
  C : Nat
  T : Nat
  G : Nat
  Coverage : Nat

/-- `vff_merge.get_max_base_freq` (vff_merge.py lines 107-113): the counts
in the fixed scan order `"ACTG"`, their maximum (`max(freqs)` folds left),
and the base at the first index attaining it (`freqs.index(freq)`); the
`getD` default is never used since the maximum is always attained. -/
def get_max_base_freq (v : VFFline) : Char × Nat :=
  let freqs := [v.A, v.C, v.T, v.G]
  let freq := max (max (max v.A v.C) v.T) v.G
  let base := (['A', 'C', 'T', 'G']).getD (freqs.indexOf freq) 'A'
  (base, freq)

/-- `vff_merge.get_base` (vff_merge.py lines 95-104). -/
def get_base (v : VFFline) (min_coverage min_frequency : Nat) : String :=
  let bf := get_max_base_freq v
  if v.Coverage ≤ min_coverage then "N"
  else if bf.2 ≤ min_frequency then "N"
  else String.singleton bf.1

/-- `vff_merge.get_encoding` (vff_merge.py lines 125-134): the fixed 3-bit
code for the five symbols. -/
def get_encoding : List (Char × List Bool) :=
  [('A', [false, false, false]),
   ('C', [false, false, true]),
   ('T', [false, true, false]),
   ('G', [false, true, true]),
   ('N', [true, false, false])]

/-- `bitarray.encode` with `get_encoding` (vff_merge.py line 120):
concatenate each symbol's code; a symbol outside the code table raises. -/
def encode : List Char → Except PyErr (List Bool)
  | [] => .ok []
  | c :: rest =>
    match get_encoding.find? (fun p => p.1 == c) with
    | some p =>
      match encode rest with
      | .ok bs => .ok (p.2 ++ bs)
      | .error e => .error e
    | none => .error .valueError

/-- `bitarray.iterdecode` with `get_encoding` (vff_merge.py line 121),
materialised: every code has length 3, so the decoder repeatedly reads 3
bits and looks the pattern up; an unknown pattern or a trailing group of
fewer than 3 bits raises. -/
def decode : List Bool → Except PyErr (List Char)
  | [] => .ok []
  | b1 :: b2 :: b3 :: rest =>
    match get_encoding.find? (fun p => p.2 == [b1, b2, b3]) with
    | some p =>
      match decode rest with
      | .ok cs => .ok (p.1 :: cs)
      | .error e => .error e
    | none => .error .valueError
  | _ => .error .valueError

/-- `[next(sequence) for sequence in sequences]` (vff_merge.py line 146):
take the next symbol from every per-cell sequence; `none` models the
`StopIteration` raised by the first exhausted iterator. -/
def nextAll : List (List String) → Option (List String × List (List String))
  | [] => some ([], [])
  | s :: rest =>
    match s with
    | [] => none
    | x :: xs =>
      match nextAll rest with
      | some (hs, ts) => some (x :: hs, xs :: ts)
      | none => none

/-- The selection that claim C4 describes, following the spec's words: the
base of maximal count with ties broken in favour of the ALPHABETICALLY
first base, i.e. a scan in the order `A, C, G, T`.  Stated for comparison
with `get_max_base_freq`, which scans in the order `A, C, T, G`. -/
def alphaFirstMax (v : VFFline) : Option Char :=
  ((List.zip ['A', 'C', 'G', 'T'] [v.A, v.C, v.G, v.T]).find?
      (fun p => p.2 == max (max (max v.A v.C) v.T) v.G)).map Prod.fst

/-- The amended selection: the first base in the code's fixed scan order
`A, C, T, G` whose count attains the maximum. -/
def scanFirstMax (v : VFFline) : Option Char :=
  ((List.zip ['A', 'C', 'T', 'G'] [v.A, v.C, v.T, v.G]).find?
      (fun p => p.2 == max (max (max v.A v.C) v.T) v.G)).map Prod.fst

/-- The row loop of `vff_merge.write_merged_table` (vff_merge.py lines
143-150): one output row per `(contig, position)` pair, each row consuming
one symbol from every cell's sequence; the loop breaks at the first
`StopIteration`. -/
def write_rows (pairs : List (String × String))
    (seqs : List (List String)) : List String :=
  match pairs with
  | [] => []
  | (c, p) :: rest =>
    match nextAll seqs with
    | some (syms, seqs2) =>
      (c ++ "\t" ++ p ++ "\t" ++ String.intercalate "\t" syms ++ "\n")
        :: write_rows rest seqs2
    | none => []

end VffMerge

/-! ### Auxiliary facts about `find?`, `pyKeys`, `counterItems` and the
stable descending sort, used to settle the consensus tie-break claims. -/

/-- The maximum of the counts in an association list (0 when empty). -/
def maxSnd {α : Type} (l : List (α × Nat)) : Nat :=
  l.foldr (fun p m => max p.2 m) 0

/-- The first entry of an association list whose count attains the maximum:
by stability, the head of `sortDesc l`. -/
def firstMax {α : Type} (l : List (α × Nat)) : Option (α × Nat) :=
  l.find? (fun p => decide (maxSnd l ≤ p.2))

/-- Remove the first occurrence of an entry from an association list
(`List.erase` with a fixed, definitional equality test). -/
def eraseEntry {α : Type} [DecidableEq α] :
    List (α × Nat) → α × Nat → List (α × Nat)
  | [], _ => []
  | q :: t, p => if q = p then t else q :: eraseEntry t p

/-- The maximal multiplicity among the observed values of a list (the
maximal counter count). -/
def maxObs (bases : List (Option Char)) : Nat :=
  maxSnd (counterItems bases)

/-- The concrete base whose first observation occurs earliest among the
maximally frequent observed values: scanning the observation list in read
order, the first entry that is a concrete base of maximal multiplicity. -/
def firstMaxBase (bases : List (Option Char)) : Option Char :=
  match bases.find?
      (fun b => b.isSome && decide (maxObs bases ≤ pyCount b bases)) with
  | some (some c) => some c
  | _ => none

theorem find?_filter_aux {α : Type} (q p : α → Bool) (l : List α) :
    (l.filter q).find? p = l.find? (fun a => q a && p a) := by
  induction l with
  | nil => rfl
  | cons x t ih =>
    by_cases hq : q x
    · by_cases hp : p x
      · simp [List.filter_cons, hq, List.find?_cons_of_pos, hp]
      · simp [List.filter_cons, hq, List.find?_cons_of_neg, hp, ih]
    · simp [List.filter_cons, hq, ih]

theorem find?_map_aux {α β : Type} (f : α → β) (p : β → Bool) (l : List α) :
    (l.map f).find? p = (l.find? (fun a => p (f a))).map f := by
  induction l with
  | nil => rfl
  | cons x t ih =>
    by_cases hp : p (f x)
    · simp [List.find?_cons_of_pos, hp]
    · simp [List.find?_cons_of_neg, hp, ih]

theorem find?_of_stronger {α : Type} (p q : α → Bool) (l : List α)
    (himp : ∀ b, q b = true → p b = true) (a : α)
    (ha : l.find? p = some a) (hqa : q a = true) : l.find? q = some a := by
  induction l with
  | nil => simp at ha
  | cons x t ih =>
    by_cases hp : p x
    · rw [List.find?_cons_of_pos _ hp] at ha
      cases ha
      rw [List.find?_cons_of_pos _ hqa]
    · have hq : ¬ q x = true := fun h => hp (himp x h)
      rw [List.find?_cons_of_neg _ hp] at ha
      rw [List.find?_cons_of_neg _ (by simpa using hq)]
      exact ih ha

theorem mem_pyKeys {α : Type} [DecidableEq α] {a : α} {l : List α} :
    a ∈ pyKeys l ↔ a ∈ l := by
  induction l with
  | nil => simp [pyKeys]
  | cons x t ih =>
    constructor
    · intro h
      rcases List.mem_cons.1 h with h | h
      · simp [h]
      · exact List.mem_cons_of_mem _ (ih.1 (List.mem_of_mem_filter h))
    · intro h
      rcases List.mem_cons.1 h with h | h
      · simp [pyKeys, h]
      · by_cases hax : a = x
        · simp [pyKeys, hax]
        · exact List.mem_cons_of_mem _
            (List.mem_filter.2 ⟨ih.2 h, by simpa using hax⟩)

theorem nodup_pyKeys {α : Type} [DecidableEq α] (l : List α) :
    (pyKeys l).Nodup := by
  induction l with
  | nil => simp [pyKeys]
  | cons x t ih =>
    refine List.Nodup.cons ?_ (List.Nodup.filter _ ih)
    intro hmem
    have := List.of_mem_filter hmem
    simp at this

theorem find?_pyKeys {α : Type} [DecidableEq α] (p : α → Bool) (l : List α) :
    (pyKeys l).find? p = l.find? p := by
  induction l with
  | nil => rfl
  | cons x t ih =>
    by_cases hp : p x
    · simp [pyKeys, List.find?_cons_of_pos, hp]
    · have hfun : (fun y => decide (y ≠ x) && p y) = p := by
        funext y
        by_cases hyx : y = x
        · subst hyx; simp [hp]
        · simp [hyx]
      simp only [pyKeys, List.find?_cons_of_neg _ (by simpa using hp)]
      rw [find?_filter_aux, hfun, ih]

theorem counterItems_map_fst {α : Type} [DecidableEq α] (l : List α) :
    (counterItems l).map Prod.fst = pyKeys l := by
  have : (Prod.fst ∘ fun k => (k, pyCount k l)) = (id : α → α) := by
    funext k; rfl
  simp [counterItems, List.map_map, this]

theorem counterItems_mem {α : Type} [DecidableEq α] {l : List α}
    {k : α} {n : Nat} (h : (k, n) ∈ counterItems l) :
    k ∈ l ∧ n = pyCount k l := by
  rcases List.mem_map.1 h with ⟨k2, hk2, heq⟩
  have h1 : k2 = k := congrArg Prod.fst heq
  subst h1
  exact ⟨mem_pyKeys.1 hk2, (congrArg Prod.snd heq).symm⟩

theorem mem_counterItems {α : Type} [DecidableEq α] {l : List α} {k : α}
    (h : k ∈ l) : (k, pyCount k l) ∈ counterItems l :=
  List.mem_map.2 ⟨k, mem_pyKeys.2 h, rfl⟩

theorem counterItems_nodup {α : Type} [DecidableEq α] (l : List α) :
    (counterItems l).Nodup := by
  refine List.Nodup.map ?_ (nodup_pyKeys l)
  intro a b hab
  exact congrArg Prod.fst hab

theorem counterItems_eq_nil {α : Type} [DecidableEq α] {l : List α}
    (h : counterItems l = []) : l = [] := by
  cases l with
  | nil => rfl
  | cons x t => simp [counterItems, pyKeys] at h

theorem le_maxSnd {α : Type} {l : List (α × Nat)} {p : α × Nat}
    (h : p ∈ l) : p.2 ≤ maxSnd l := by
  induction l with
  | nil => simp at h
  | cons q t ih =>
    rcases List.mem_cons.1 h with h | h
    · subst h; exact Nat.le_max_left _ _
    · exact Nat.le_trans (ih h) (Nat.le_max_right _ _)

theorem maxSnd_le {α : Type} {l : List (α × Nat)} {n : Nat}
    (h : ∀ p ∈ l, p.2 ≤ n) : maxSnd l ≤ n := by
  induction l with
  | nil => simp [maxSnd]
  | cons q t ih =>
    have h1 : q.2 ≤ n := h q (List.mem_cons_self _ _)
    have h2 : maxSnd t ≤ n := ih (fun p hp => h p (List.mem_cons_of_mem _ hp))
    simpa [maxSnd] using Nat.max_le.2 ⟨h1, h2⟩

theorem maxSnd_cons {α : Type} (q : α × Nat) (t : List (α × Nat)) :
    maxSnd (q :: t) = max q.2 (maxSnd t) := rfl

theorem insertDesc_perm {α : Type} (p : α × Nat) (l : List (α × Nat)) :
    List.Perm (insertDesc p l) (p :: l) := by
  induction l with
  | nil => simp [insertDesc]
  | cons q t ih =>
    by_cases h : q.2 ≤ p.2
    · simp [insertDesc, h]
    · simp only [insertDesc, if_neg h]
      exact List.Perm.trans (List.Perm.cons q ih) (List.Perm.swap _ _ _)

theorem sortDesc_perm {α : Type} (l : List (α × Nat)) :
    List.Perm (sortDesc l) l := by
  induction l with
  | nil => simp [sortDesc]
  | cons p t ih =>
    exact List.Perm.trans (insertDesc_perm p (sortDesc t)) (List.Perm.cons p ih)

theorem maxSnd_attained {α : Type} {l : List (α × Nat)} (h : l ≠ []) :
    ∃ p ∈ l, maxSnd l ≤ p.2 := by
  induction l with
  | nil => exact absurd rfl h
  | cons q t ih =>
    cases t with
    | nil =>
      refine ⟨q, List.mem_cons_self _ _, ?_⟩
      simp [maxSnd_cons, maxSnd]
    | cons r s =>
      rcases max_choice q.2 (maxSnd (r :: s)) with hm | hm
      · exact ⟨q, List.mem_cons_self _ _, by rw [maxSnd_cons, hm]⟩
      · rcases ih (by simp) with ⟨p, hp, hle⟩
        exact ⟨p, List.mem_cons_of_mem _ hp,
          by rw [maxSnd_cons, hm]; exact hle⟩

theorem firstMax_isSome {α : Type} {l : List (α × Nat)} (h : l ≠ []) :
    ∃ p, firstMax l = some p := by
  rcases maxSnd_attained h with ⟨p, hp, hle⟩
  have hs : (l.find? (fun p => decide (maxSnd l ≤ p.2))).isSome := by
    rw [List.find?_isSome]
    exact ⟨p, hp, decide_eq_true hle⟩
  rcases Option.isSome_iff_exists.1 hs with ⟨q, hq⟩
  exact ⟨q, hq⟩

theorem firstMax_mem {α : Type} {l : List (α × Nat)} {p : α × Nat}
    (h : firstMax l = some p) : p ∈ l :=
  List.mem_of_find?_eq_some h

theorem firstMax_le {α : Type} {l : List (α × Nat)} {p : α × Nat}
    (h : firstMax l = some p) : maxSnd l ≤ p.2 := by
  have hp := List.find?_some h
  simp at hp
  exact hp

theorem firstMax_cons_of_ge {α : Type} {p : α × Nat} {t : List (α × Nat)}
    (hc : maxSnd t ≤ p.2) : firstMax (p :: t) = some p := by
  have hmax : maxSnd (p :: t) = p.2 := by
    rw [maxSnd_cons, max_eq_left hc]
  rw [firstMax]
  rw [List.find?_cons_of_pos]
  simp [hmax]

theorem firstMax_cons_of_lt {α : Type} {p : α × Nat} {t : List (α × Nat)}
    (hc : p.2 < maxSnd t) : firstMax (p :: t) = firstMax t := by
  have hmax : maxSnd (p :: t) = maxSnd t := by
    rw [maxSnd_cons, max_eq_right (Nat.le_of_lt hc)]
  rw [firstMax, firstMax]
  rw [List.find?_cons_of_neg]
  · have hpeq : (fun q : α × Nat => decide (maxSnd (p :: t) ≤ q.2))
        = (fun q : α × Nat => decide (maxSnd t ≤ q.2)) := by
      funext q; rw [hmax]
    rw [hpeq]
  · simp [hmax]
    omega

theorem mem_of_mem_eraseEntry {α : Type} [DecidableEq α]
    {l : List (α × Nat)} {a b : α × Nat} (h : a ∈ eraseEntry l b) :
    a ∈ l := by
  induction l with
  | nil => rw [eraseEntry] at h; exact absurd h (List.not_mem_nil a)
  | cons q t ih =>
    by_cases hq : q = b
    · rw [eraseEntry, if_pos hq] at h
      exact List.mem_cons_of_mem _ h
    · rw [eraseEntry, if_neg hq] at h
      rcases List.mem_cons.1 h with h | h
      · simp [h]
      · exact List.mem_cons_of_mem _ (ih h)

theorem nodup_mem_eraseEntry {α : Type} [DecidableEq α]
    {l : List (α × Nat)} (hl : l.Nodup) {a b : α × Nat} :
    a ∈ eraseEntry l b ↔ a ≠ b ∧ a ∈ l := by
  induction l with
  | nil => simp [eraseEntry]
  | cons q t ih =>
    have hq_nin : q ∉ t := (List.nodup_cons.1 hl).1
    have ht : t.Nodup := (List.nodup_cons.1 hl).2
    by_cases hq : q = b
    · subst hq
      rw [eraseEntry, if_pos rfl]
      constructor
      · intro h
        exact ⟨fun he => hq_nin (he ▸ h), List.mem_cons_of_mem _ h⟩
      · rintro ⟨hne, h⟩
        rcases List.mem_cons.1 h with h | h
        · exact absurd h hne
        · exact h
    · rw [eraseEntry, if_neg hq]
      constructor
      · intro h
        rcases List.mem_cons.1 h with h | h
        · exact ⟨h ▸ hq, by simp [h]⟩
        · rcases (ih ht).1 h with ⟨hne, hmem⟩
          exact ⟨hne, List.mem_cons_of_mem _ hmem⟩
      · rintro ⟨hne, h⟩
        rcases List.mem_cons.1 h with h | h
        · simp [h]
        · exact List.mem_cons_of_mem _ ((ih ht).2 ⟨hne, h⟩)

theorem nodup_not_mem_eraseEntry {α : Type} [DecidableEq α]
    {l : List (α × Nat)} (hl : l.Nodup) {a : α × Nat} :
    a ∉ eraseEntry l a := by
  intro h
  exact ((nodup_mem_eraseEntry hl).1 h).1 rfl

theorem nodup_eraseEntry_eq_filter {α : Type} [DecidableEq α]
    {l : List (α × Nat)} (hl : l.Nodup) (p : α × Nat) :
    eraseEntry l p = l.filter (fun q => decide (q ≠ p)) := by
  induction l with
  | nil => rfl
  | cons q t ih =>
    have hq_nin : q ∉ t := (List.nodup_cons.1 hl).1
    have ht : t.Nodup := (List.nodup_cons.1 hl).2
    by_cases hq : q = p
    · subst hq
      have hself : List.filter (fun x => !decide (x = q)) t = t := by
        rw [List.filter_eq_self]
        intro x hx
        simp only [Bool.not_eq_true', decide_eq_false_iff_not]
        exact fun he => hq_nin (he ▸ hx)
      rw [eraseEntry, if_pos rfl, List.filter_cons]
      simp [hself]
    · rw [eraseEntry, if_neg hq, List.filter_cons, if_pos (by simpa using hq),
        ih ht]

/-- Stability of the descending sort: the head of `sortDesc l` is the first
entry of `l` attaining the maximal count, and the tail is the stable sort of
the remainder. -/
theorem sortDesc_eq_cons {α : Type} [DecidableEq α] :
    ∀ (l : List (α × Nat)) (h : α × Nat), firstMax l = some h →
      sortDesc l = h :: sortDesc (eraseEntry l h)
  | [], h, hfm => by simp [firstMax] at hfm
  | p :: t, h, hfm => by
    by_cases hc : maxSnd t ≤ p.2
    · have hh : h = p := by
        rw [firstMax_cons_of_ge hc] at hfm
        exact (Option.some_inj.1 hfm).symm
      subst hh
      rw [eraseEntry, if_pos rfl]
      show insertDesc h (sortDesc t) = h :: sortDesc t
      cases hst : sortDesc t with
      | nil => simp [insertDesc]
      | cons q t2 =>
        have hq : q ∈ t := (sortDesc_perm t).mem_iff.1 (by simp [hst])
        have hle : q.2 ≤ h.2 := Nat.le_trans (le_maxSnd hq) hc
        simp [insertDesc, hle]
    · have hlt : p.2 < maxSnd t := Nat.lt_of_not_le hc
      have hfm2 : firstMax t = some h := by
        rw [firstMax_cons_of_lt hlt] at hfm
        exact hfm
      have hhmem : h ∈ t := firstMax_mem hfm2
      have hhge : maxSnd t ≤ h.2 := firstMax_le hfm2
      have hne : p ≠ h := by
        intro he
        subst he
        exact Nat.not_le.2 hlt hhge
      rw [eraseEntry, if_neg hne]
      show insertDesc p (sortDesc t)
        = h :: insertDesc p (sortDesc (eraseEntry t h))
      rw [sortDesc_eq_cons t h hfm2]
      have hcond : ¬ h.2 ≤ p.2 :=
        fun hle => Nat.not_le.2 hlt (Nat.le_trans hhge hle)
      simp [insertDesc, hcond]

theorem filter_map_aux {α β : Type} (f : α → β) (p : β → Bool) (l : List α) :
    (l.map f).filter p = (l.filter (fun a => p (f a))).map f := by
  induction l with
  | nil => rfl
  | cons x t ih =>
    by_cases hp : p (f x)
    · simp [List.filter_cons, hp, ih]
    · simp [List.filter_cons, hp, ih]

/-- When one observed value strictly dominates every other in multiplicity,
it heads the stable descending sort of the counter. -/
theorem counter_strict_firstMax (bases : List (Option Char))
    (b0 : Option Char) (hmem : b0 ∈ bases)
    (hstrict : ∀ b ∈ bases, b ≠ b0 → pyCount b bases < pyCount b0 bases) :
    firstMax (counterItems bases) = some (b0, pyCount b0 bases) := by
  have hin : (b0, pyCount b0 bases) ∈ counterItems bases :=
    mem_counterItems hmem
  have hub : ∀ p ∈ counterItems bases, p.2 ≤ pyCount b0 bases := by
    intro p hp
    rcases counterItems_mem hp with ⟨hpk, hpc⟩
    by_cases hkc : p.1 = b0
    · rw [hpc, hkc]
    · rw [hpc]; exact Nat.le_of_lt (hstrict p.1 hpk hkc)
  have hmax : maxSnd (counterItems bases) = pyCount b0 bases :=
    Nat.le_antisymm (maxSnd_le hub) (le_maxSnd hin)
  have hne : counterItems bases ≠ [] := by
    intro h0; rw [h0] at hin; simp at hin
  rcases firstMax_isSome hne with ⟨q, hq⟩
  obtain ⟨k, m⟩ := q
  have hqmem := firstMax_mem hq
  have hqle := firstMax_le hq
  rcases counterItems_mem hqmem with ⟨hk_mem, hm_eq⟩
  have hkey : k = b0 := by
    by_contra hkne
    have hlt := hstrict k hk_mem hkne
    rw [hmax, hm_eq] at hqle
    exact Nat.lt_irrefl _ (Nat.lt_of_lt_of_le hlt hqle)
  subst hkey
  rw [hm_eq] at hq
  exact hq

/-- Strict-majority selection: when a concrete base strictly dominates every
other observed value, the consensus returns it. -/
theorem consensus_strict_base (bases : List (Option Char)) (c : Char)
    (mc : Nat) (hmc : mc ≤ bases.length) (hmem : some c ∈ bases)
    (hstrict : ∀ b ∈ bases, b ≠ some c →
      pyCount b bases < pyCount (some c) bases) :
    Vcm.most_common_base_of bases "N" mc = some (String.singleton c) := by
  have hfm := counter_strict_firstMax bases (some c) hmem hstrict
  have hsort := sortDesc_eq_cons (counterItems bases) _ hfm
  simp only [Vcm.most_common_base_of, if_neg (Nat.not_lt.2 hmc), most_common]
  rw [hsort]
  simp

/-- When `None` (deletion) heads the ranking and a concrete base was
observed, the second-ranked entry is a concrete base of maximal
multiplicity among the concrete bases, and the consensus returns it. -/
theorem consensus_second_rank (bases : List (Option Char)) (mc n : Nat)
    (hmc : mc ≤ bases.length)
    (hfm : firstMax (counterItems bases) = some (none, n))
    (hbase : ∃ c : Char, some c ∈ bases) :
    ∃ e : Char, some e ∈ bases
      ∧ firstMax (eraseEntry (counterItems bases) (none, n))
          = some (some e, pyCount (some e) bases)
      ∧ maxSnd (eraseEntry (counterItems bases) (none, n))
          = pyCount (some e) bases
      ∧ (∀ d : Char, some d ∈ bases →
          pyCount (some d) bases ≤ pyCount (some e) bases)
      ∧ Vcm.most_common_base_of bases "N" mc
          = some (String.singleton e) := by
  have hnodup : (counterItems bases).Nodup := counterItems_nodup bases
  have hsort1 := sortDesc_eq_cons (counterItems bases) _ hfm
  rcases hbase with ⟨c0, hc0⟩
  have hc0in : (some c0, pyCount (some c0) bases) ∈ counterItems bases :=
    mem_counterItems hc0
  have hc0in2 : (some c0, pyCount (some c0) bases)
      ∈ eraseEntry (counterItems bases) (none, n) :=
    (nodup_mem_eraseEntry hnodup).2 ⟨by simp, hc0in⟩
  have hne2 : eraseEntry (counterItems bases) (none, n) ≠ [] := by
    intro h0; rw [h0] at hc0in2; simp at hc0in2
  rcases firstMax_isSome hne2 with ⟨q, hq⟩
  obtain ⟨k, m⟩ := q
  have hqmem2 := firstMax_mem hq
  have hqmem : (k, m) ∈ counterItems bases := mem_of_mem_eraseEntry hqmem2
  rcases counterItems_mem hqmem with ⟨hk_mem, hm_eq⟩
  have hkne : k ≠ none := by
    intro hkeq
    subst hkeq
    rcases counterItems_mem (firstMax_mem hfm) with ⟨_, hn_eq⟩
    have hmn : m = n := by rw [hm_eq, hn_eq]
    subst hmn
    exact (nodup_not_mem_eraseEntry hnodup) hqmem2
  rcases Option.ne_none_iff_exists'.1 hkne with ⟨e, rfl⟩
  have hqle := firstMax_le hq
  have h1 := le_maxSnd hqmem2
  have hmaxsnd : maxSnd (eraseEntry (counterItems bases) (none, n))
      = pyCount (some e) bases := by
    have h2 : maxSnd (eraseEntry (counterItems bases) (none, n)) = m :=
      Nat.le_antisymm hqle h1
    rw [h2, hm_eq]
  have hq2 : firstMax (eraseEntry (counterItems bases) (none, n))
      = some (some e, pyCount (some e) bases) := by
    rw [← hm_eq]; exact hq
  have hmaxim : ∀ d : Char, some d ∈ bases →
      pyCount (some d) bases ≤ pyCount (some e) bases := by
    intro d hd
    have hdin : (some d, pyCount (some d) bases) ∈ counterItems bases :=
      mem_counterItems hd
    have hdin2 : (some d, pyCount (some d) bases)
        ∈ eraseEntry (counterItems bases) (none, n) :=
      (nodup_mem_eraseEntry hnodup).2 ⟨by simp, hdin⟩
    have hle := le_maxSnd hdin2
    rw [hmaxsnd] at hle
    exact hle
  have hsort2 :=
    sortDesc_eq_cons (eraseEntry (counterItems bases) (none, n)) _ hq
  refine ⟨e, hk_mem, hq2, hmaxsnd, hmaxim, ?_⟩
  simp only [Vcm.most_common_base_of, if_neg (Nat.not_lt.2 hmc), most_common]
  rw [hsort1, hsort2]
  simp

theorem pyKeys_all_none (bases : List (Option Char)) (hne : bases ≠ [])
    (hall : ∀ b ∈ bases, b = none) :
    pyKeys bases = [(none : Option Char)] := by
  induction bases with
  | nil => exact absurd rfl hne
  | cons x t ih =>
    have hx : x = none := hall x (List.mem_cons_self _ _)
    subst hx
    cases t with
    | nil => rfl
    | cons y s =>
      have ht := ih (by simp) (fun b hb => hall b (List.mem_cons_of_mem _ hb))
      rw [pyKeys, ht]
      simp

/-- With observations but no concrete base (all deletions), the consensus is
the unknown marker. -/
theorem consensus_all_none (bases : List (Option Char)) (mc : Nat)
    (hmc : mc ≤ bases.length) (hne : bases ≠ [])
    (hall : ∀ b ∈ bases, b = none) :
    Vcm.most_common_base_of bases "N" mc = some "N" := by
  have hkeys := pyKeys_all_none bases hne hall
  simp only [Vcm.most_common_base_of, if_neg (Nat.not_lt.2 hmc), most_common,
    counterItems, hkeys]
  simp [sortDesc, insertDesc]

/-- As soon as one concrete base was observed, the consensus never returns
Python `None` (the raw deletion marker). -/
theorem consensus_ne_none (bases : List (Option Char)) (mc : Nat)
    (hbase : ∃ c : Char, some c ∈ bases) :
    Vcm.most_common_base_of bases "N" mc ≠ none := by
  by_cases hlen : bases.length < mc
  · simp [Vcm.most_common_base_of, hlen]
  · simp only [Vcm.most_common_base_of, if_neg hlen]
    cases h2 : most_common bases 2 with
    | nil => simp
    | cons p rest =>
      obtain ⟨k0, n0⟩ := p
      cases k0 with
      | some c => simp
      | none =>
        cases rest with
        | nil => simp
        | cons q rest2 =>
          obtain ⟨k1, n1⟩ := q
          cases k1 with
          | some c => simp
          | none =>
            exfalso
            have hnodup : (counterItems bases).Nodup :=
              counterItems_nodup bases
            have hsnodup : (sortDesc (counterItems bases)).Nodup :=
              ((sortDesc_perm (counterItems bases)).nodup_iff).2 hnodup
            rw [most_common] at h2
            rcases hs : sortDesc (counterItems bases) with _ | ⟨x, _ | ⟨y, s⟩⟩
            · rw [hs] at h2; simp at h2
            · rw [hs] at h2; simp at h2
            · rw [hs] at h2
              simp only [List.take_succ_cons, List.take_zero,
                List.cons.injEq] at h2
              obtain ⟨hx, hy, hr⟩ := h2
              subst hx
              subst hy
              have hxm : ((none : Option Char), n0) ∈ counterItems bases :=
                (sortDesc_perm (counterItems bases)).mem_iff.1
                  (by rw [hs]; simp)
              have hym : ((none : Option Char), n1) ∈ counterItems bases :=
                (sortDesc_perm (counterItems bases)).mem_iff.1
                  (by rw [hs]; simp)
              rcases counterItems_mem hxm with ⟨_, hxn⟩
              rcases counterItems_mem hym with ⟨_, hyn⟩
              have hn01 : n0 = n1 := by rw [hxn, hyn]
              subst hn01
              rw [hs] at hsnodup
              simp at hsnodup

namespace VffMake

theorem counterGet_counterAdd (c : List (Option Char × Nat))
    (b k : Option Char) :
    counterGet (counterAdd c b) k
      = counterGet c k + (if k = b then 1 else 0) := by
  induction c with
  | nil =>
    by_cases hkb : k = b
    · subst hkb; simp [counterAdd, counterGet]
    · have hbk : ¬ b = k := fun h => hkb h.symm
      simp [counterAdd, counterGet, hkb, hbk]
  | cons q t ih =>
    obtain ⟨k0, n⟩ := q
    by_cases h1 : k0 = b
    · subst h1
      by_cases h2 : k0 = k
      · subst h2
        simp [counterAdd, counterGet]
      · have h2s : ¬ k = k0 := fun he => h2 he.symm
        simp [counterAdd, counterGet, h2, h2s]
    · by_cases h2 : k0 = k
      · subst h2
        simp [counterAdd, counterGet, h1]
      · have hadd : counterAdd ((k0, n) :: t) b = (k0, n) :: counterAdd t b := by
          simp [counterAdd, h1]
        rw [hadd]
        have hskip : ∀ l : List (Option Char × Nat),
            counterGet ((k0, n) :: l) k = counterGet l k := by
          intro l
          simp only [counterGet]
          rw [List.find?_cons_of_neg]
          simp [h2]
        rw [hskip, hskip, ih]

theorem counterGet_counter_update (obs : List (Option Char)) :
    ∀ (c : List (Option Char × Nat)) (k : Option Char),
      counterGet (counter_update c obs) k = counterGet c k + pyCount k obs := by
  induction obs with
  | nil => intro c k; simp [counter_update, pyCount]
  | cons b t ih =>
    intro c k
    have hstep : counter_update c (b :: t) = counter_update (counterAdd c b) t := by
      simp [counter_update]
    rw [hstep, ih, counterGet_counterAdd]
    have hc : pyCount k (b :: t) = pyCount k t + (if b = k then 1 else 0) := by
      by_cases h : b = k <;> simp [pyCount, List.filter_cons, h]
    rw [hc]
    by_cases h : k = b
    · rw [if_pos h, if_pos h.symm]
      omega
    · have hbk : ¬ b = k := fun he => h he.symm
      rw [if_neg h, if_neg hbk]
      omega

theorem sum_counterAdd (c : List (Option Char × Nat)) (b : Option Char) :
    ((counterAdd c b).map Prod.snd).sum = (c.map Prod.snd).sum + 1 := by
  induction c with
  | nil => simp [counterAdd]
  | cons q t ih =>
    obtain ⟨k0, n⟩ := q
    by_cases h : k0 = b
    · simp [counterAdd, h]
      omega
    · simp [counterAdd, h, ih]
      omega

theorem sum_counter_update (obs : List (Option Char)) :
    ∀ c : List (Option Char × Nat),
      ((counter_update c obs).map Prod.snd).sum
        = (c.map Prod.snd).sum + obs.length := by
  induction obs with
  | nil => intro c; simp [counter_update]
  | cons b t ih =>
    intro c
    have hstep : counter_update c (b :: t) = counter_update (counterAdd c b) t := by
      simp [counter_update]
    rw [hstep, ih, sum_counterAdd]
    simp
    omega

theorem counterGet_empty_counter (k : Option Char) :
    counterGet empty_counter k = 0 := by
  rw [counterGet]
  cases hf : empty_counter.find? (fun p => decide (p.1 = k)) with
  | none => rfl
  | some p =>
    have hmem := List.mem_of_find?_eq_some hf
    simp only [empty_counter, List.mem_cons, List.mem_singleton,
      List.not_mem_nil, or_false] at hmem
    rcases hmem with h | h | h | h <;> simp [h]

end VffMake

/-- Searching a counter association list by a count predicate and projecting
to the key equals searching the key list with the composed predicate. -/
theorem counter_find?_snd (bases keys : List (Option Char)) (m : Nat) :
    ((keys.map (fun k => (k, pyCount k bases))).find?
        (fun q => decide (m ≤ q.2))).map Prod.fst
      = keys.find? (fun k => decide (m ≤ pyCount k bases)) := by
  induction keys with
  | nil => rfl
  | cons x t ih =>
    by_cases h : m ≤ pyCount x bases
    · rw [List.map_cons, List.find?_cons_of_pos _ (by simpa using h),
        List.find?_cons_of_pos _ (by simpa using h)]
      rfl
    · rw [List.map_cons, List.find?_cons_of_neg _ (by simpa using h),
        List.find?_cons_of_neg _ (by simpa using h)]
      exact ih

/-! ### The claims -/

/-- C1: the claim states that every VFF data row lists the four base counts
in the order `countA, countC, countT, countG`, matching the header columns
`A, C, T, G`.  The code contradicts its own header: `vff_header` declares
the base columns in the order `A, C, T, G` but `vff_line` writes the counts
in the order `A, C, G, T`, so on a frequency vector with A=1, C=2, G=3, T=4
the column under the header `T` holds the G count 3 and the column under
`G` holds the T count 4. -/
theorem C1_header_data_order_mismatch :
    VffMake.vff_header = "Contig\tPosition\tReference\tA\tC\tT\tG\tTotal\n"
    ∧ VffMake.vff_line ⟨"chr1", 100, "A", 99, 100⟩
        (VffMake.get_base_frequencies
          [some 'A', some 'C', some 'C', some 'G', some 'G', some 'G',
           some 'T', some 'T', some 'T', some 'T'])
        = "chr1\t100\tA\t1\t2\t3\t4\t10\n"
    ∧ VffMake.header_bases.get? 2 = some 'T'
    ∧ (VffMake.vff_freqlist VffMake.line_bases
        (VffMake.get_base_frequencies
          [some 'A', some 'C', some 'C', some 'G', some 'G', some 'G',
           some 'T', some 'T', some 'T', some 'T'])).get? 2 = some 3
    ∧ VffMake.counterGet
        (VffMake.get_base_frequencies
          [some 'A', some 'C', some 'C', some 'G', some 'G', some 'G',
           some 'T', some 'T', some 'T', some 'T']) (some 'T') = 4
    ∧ VffMake.counterGet
        (VffMake.get_base_frequencies
          [some 'A', some 'C', some 'C', some 'G', some 'G', some 'G',
           some 'T', some 'T', some 'T', some 'T']) (some 'G') = 3 :=
  ⟨rfl, rfl, rfl, rfl, rfl, rfl⟩

/-- C3 (counterexample): the claim states that the Total field equals the
sum of the four base counts A+C+G+T.  For the single-read observation list
`[none]` (one covering read whose base at the position is a deletion), all
four base counts are 0 but the written Total is 1. -/
theorem C3_counterexample :
    VffMake.vff_freqlist VffMake.line_bases
        (VffMake.get_base_frequencies [none]) = [0, 0, 0, 0, 1]
    ∧ (0 + 0 + 0 + 0 : Nat) ≠ 1 :=
  ⟨rfl, by decide⟩

/-- C3 (amended): a NoBase (deletion) observation increments none of the
four base counts — each of the four counts equals the multiplicity of that
base among the observations — but the Total field equals the NUMBER of
covering reads (NoBase and non-ACGT observations included), not the sum
A+C+G+T; in particular, for zero covering reads all four counts and the
total are zero. -/
theorem C3_nobase_and_total (obs : List (Option Char)) :
    (∀ b : Char,
      VffMake.counterGet (VffMake.get_base_frequencies obs) (some b)
        = pyCount (some b) obs)
    ∧ VffMake.vff_freqlist VffMake.line_bases
        (VffMake.get_base_frequencies obs)
      = [pyCount (some 'A') obs, pyCount (some 'C') obs,
         pyCount (some 'G') obs, pyCount (some 'T') obs, obs.length] := by
  have hget : ∀ b : Char,
      VffMake.counterGet (VffMake.get_base_frequencies obs) (some b)
        = pyCount (some b) obs := by
    intro b
    rw [VffMake.get_base_frequencies,
      VffMake.counterGet_counter_update obs VffMake.empty_counter (some b),
      VffMake.counterGet_empty_counter]
    simp
  refine ⟨hget, ?_⟩
  have hsum : ((VffMake.get_base_frequencies obs).map Prod.snd).sum
      = obs.length := by
    rw [VffMake.get_base_frequencies,
      VffMake.sum_counter_update obs VffMake.empty_counter]
    simp [VffMake.empty_counter]
  simp [VffMake.vff_freqlist, VffMake.line_bases, hget, hsum]

/-- C5: the claim states the adaptive unit size equals
`ceil(batch_length / (worker_count * factor))` with `factor` the configured
scaling factor.  `calculate_chunksize` does compute that ceiling (both
worked examples of the claim check out with the default factor 4), but
`main` never passes the parsed `--factor` to it, so a configured factor of
8 with 4 workers and batch length 100 still yields unit size
`ceil(100/16) = 7` instead of `ceil(100/32) = 4`. -/
theorem C5_configured_factor_ignored :
    Vcm.calculate_chunksize 3 10 4 = 1
    ∧ Vcm.calculate_chunksize 4 100 4 = 7
    ∧ Vcm.main_adaptive_chunksize 4 8 100 = 7
    ∧ (100 + (4 * 8 - 1)) / (4 * 8) = 4
    ∧ Vcm.main_adaptive_chunksize 4 8 100 ≠ (100 + (4 * 8 - 1)) / (4 * 8) := by
  decide

/-- C6: the claim states that `base_at` returns the query base at an aligned
position, NoBase at a deletion, and on an absent position logs full read
and variant context and re-raises `PositionNotAligned`.  The value cases
hold, but in `vcm.py` the failure path calls `sys.stderr.write(read)` with
the `Read` tuple itself — not a string — so the write raises `TypeError`:
nothing is written to stderr, the `VariantReadError` is never raised, and
the `except VariantReadError` handler of `get_most_common_base` does not
log the variant context either. -/
theorem C6_failure_path_type_error :
    Vcm.get_base ⟨"BC1", [(some 0, some 5)], ['A']⟩ 5 = ([], .ok (some 'A'))
    ∧ Vcm.get_base ⟨"BC1", [(none, some 5)], ['A']⟩ 5 = ([], .ok none)
    ∧ Vcm.get_base ⟨"BC1", [(some 0, some 5)], ['A']⟩ 7
        = ([], .error .typeError)
    ∧ Vcm.get_most_common_base [⟨"BC1", [(some 0, some 5)], ['A']⟩]
        ⟨"chr1", 8, "A", 7, 8⟩ "N" 0 = ([], .error .typeError)
    ∧ PyErr.typeError ≠ PyErr.variantReadError :=
  ⟨rfl, rfl, rfl, rfl, by decide⟩

/-- C9: a fetched read without a CB tag, or with mapping quality strictly
below the configured minimum, is discarded before any consensus
computation: removing such a read from the fetched list leaves the entire
per-variant output (diagnostics and line) unchanged, so it contributes to
no barcode's call and no coverage count. -/
theorem C9_untagged_low_mapq_discarded (pre post : List Vcm.BamRead)
    (bad : Vcm.BamRead) (variant : Variant) (barcodes : List String)
    (min_coverage min_mapq : Nat)
    (hbad : bad.cb = none ∨ bad.mapping_quality < min_mapq) :
    Vcm.process_variant (pre ++ bad :: post) variant barcodes
        min_coverage min_mapq
      = Vcm.process_variant (pre ++ post) variant barcodes
        min_coverage min_mapq := by
  have hp : (bad.cb.isSome && decide (min_mapq ≤ bad.mapping_quality))
      = false := by
    rcases hbad with h | h
    · simp [h]
    · simp [Nat.not_le.2 h]
  simp only [Vcm.process_variant, List.filter_append, List.filter_cons, hp]
  simp

/-- Witness for C9 at a concrete input: an untagged read is dropped. -/
theorem C9_witness :
    Vcm.process_variant [⟨none, 100, [(some 0, some 7)], ['A']⟩]
        ⟨"chr1", 8, "A", 7, 8⟩ ["BC1"] 0 0
      = Vcm.process_variant [] ⟨"chr1", 8, "A", 7, 8⟩ ["BC1"] 0 0 :=
  C9_untagged_low_mapq_discarded [] [] ⟨none, 100, [(some 0, some 7)], ['A']⟩
    ⟨"chr1", 8, "A", 7, 8⟩ ["BC1"] 0 0 (Or.inl rfl)

/-- C2: the Consensus (VCM) tie-break policy, for every observation multiset
with read count at or above the minimum-coverage threshold: (1) if the most
frequent observed value is a concrete base it is returned; (2) if the most
frequent value is NoBase (deletion) and a second-ranked distinct base
exists, a concrete base of maximal multiplicity among the bases is returned
instead of the deletion marker; (3) if no second rank exists, "N" is
returned; and (4) for any read set with at least one base observation the
result is never the raw no-base marker (Python `None`). -/
theorem C2_consensus_tie_break (bases : List (Option Char)) (mc : Nat)
    (hmc : mc ≤ bases.length) :
    (∀ c : Char, some c ∈ bases →
        (∀ b ∈ bases, b ≠ some c →
          pyCount b bases < pyCount (some c) bases) →
        Vcm.most_common_base_of bases "N" mc = some (String.singleton c))
    ∧ ((none ∈ bases ∧
          ∀ c : Char, some c ∈ bases →
            pyCount (some c) bases < pyCount none bases) →
        (∃ c : Char, some c ∈ bases) →
        ∃ c : Char, some c ∈ bases
          ∧ (∀ d : Char, some d ∈ bases →
              pyCount (some d) bases ≤ pyCount (some c) bases)
          ∧ Vcm.most_common_base_of bases "N" mc
              = some (String.singleton c))
    ∧ ((bases ≠ [] ∧ ∀ b ∈ bases, b = none) →
        Vcm.most_common_base_of bases "N" mc = some "N")
    ∧ ((∃ c : Char, some c ∈ bases) →
        Vcm.most_common_base_of bases "N" mc ≠ none) := by
  refine ⟨?_, ?_, ?_, ?_⟩
  · intro c hmem hstrict
    exact consensus_strict_base bases c mc hmc hmem hstrict
  · rintro ⟨hnone, hdom⟩ hbase
    have hstrict : ∀ b ∈ bases, b ≠ none →
        pyCount b bases < pyCount none bases := by
      intro b hb hbne
      rcases Option.ne_none_iff_exists'.1 hbne with ⟨c, rfl⟩
      exact hdom c hb
    have hfm := counter_strict_firstMax bases none hnone hstrict
    rcases consensus_second_rank bases mc (pyCount none bases) hmc hfm hbase
      with ⟨e, he1, _, _, he4, he5⟩
    exact ⟨e, he1, he4, he5⟩
  · rintro ⟨hne, hall⟩
    exact consensus_all_none bases mc hmc hne hall
  · intro hbase
    exact consensus_ne_none bases mc hbase

/-- Witness for C2: a strict majority base among the resolved observations
`[A, A, NoBase]`, with minimum coverage 3, is returned. -/
theorem C2_witness :
    Vcm.most_common_base_of [some 'A', some 'A', none] "N" 3
      = some (String.singleton 'A') :=
  (C2_consensus_tie_break [some 'A', some 'A', none] 3 (by decide)).1 'A'
    (by decide) (by decide)

/-- C10: when two or more concrete bases share the maximal frequency, the
consensus returns the concrete base whose first observation occurs earliest
in read order (`firstMaxBase`); and the consensus is not a function of the
bare observation multiset: two permutations of the same observations can
give different calls. -/
theorem C10_tie_first_observed (bases : List (Option Char)) (mc : Nat)
    (hmc : mc ≤ bases.length)
    (htie : ∃ c d : Char, c ≠ d ∧ some c ∈ bases ∧ some d ∈ bases
      ∧ pyCount (some c) bases = maxObs bases
      ∧ pyCount (some d) bases = maxObs bases) :
    (∃ e : Char, firstMaxBase bases = some e
      ∧ Vcm.most_common_base_of bases "N" mc = some (String.singleton e))
    ∧ (∃ l1 l2 : List (Option Char), List.Perm l1 l2
        ∧ Vcm.most_common_base_of l1 "N" 0
            ≠ Vcm.most_common_base_of l2 "N" 0) := by
  constructor
  · obtain ⟨c, d, hcd, hc, hd, hcm, hdm⟩ := htie
    have hne : counterItems bases ≠ [] := by
      have hcin := mem_counterItems hc
      intro h0
      rw [h0] at hcin
      simp at hcin
    rcases firstMax_isSome hne with ⟨⟨k, n⟩, hfm⟩
    cases k with
    | some e =>
      have hsort := sortDesc_eq_cons (counterItems bases) _ hfm
      have hres : Vcm.most_common_base_of bases "N" mc
          = some (String.singleton e) := by
        simp only [Vcm.most_common_base_of, if_neg (Nat.not_lt.2 hmc),
          most_common]
        rw [hsort]
        simp
      have hproj := congrArg (Option.map Prod.fst) hfm
      simp only [Option.map_some'] at hproj
      simp only [firstMax, counterItems] at hproj
      rw [counter_find?_snd] at hproj
      have hO : maxObs bases
          = maxSnd ((pyKeys bases).map (fun k => (k, pyCount k bases))) := by
        simp only [maxObs, counterItems]
      rw [← hO, find?_pyKeys] at hproj
      have hstrong := find?_of_stronger
        (fun b => decide (maxObs bases ≤ pyCount b bases))
        (fun b => b.isSome && decide (maxObs bases ≤ pyCount b bases))
        bases
        (fun b hb => by
          simp only [Bool.and_eq_true] at hb
          exact hb.2)
        (some e) hproj (by simpa using List.find?_some hproj)
      have hfinal : bases.find?
          (fun b => b.isSome && decide (maxObs bases ≤ pyCount b bases))
          = some (some e) := hstrong
      refine ⟨e, ?_, hres⟩
      simp only [firstMaxBase]
      rw [hfinal]
    | none =>
      rcases counterItems_mem (firstMax_mem hfm) with ⟨hnmem, hn_eq⟩
      rcases consensus_second_rank bases mc n hmc hfm ⟨c, hc⟩
        with ⟨e, he_mem, hq2, hmaxsnd, hmaxim, hres⟩
      refine ⟨e, ?_, hres⟩
      have hMeq : pyCount (some e) bases = maxObs bases := by
        have h1 : maxObs bases ≤ pyCount (some e) bases := by
          rw [← hcm]; exact hmaxim c hc
        have h2 : pyCount (some e) bases ≤ maxObs bases := by
          have hle := le_maxSnd (mem_counterItems he_mem)
          exact hle
        exact Nat.le_antisymm h2 h1
      have hnodup := counterItems_nodup bases
      have hcongr : List.filter
          (fun q => decide (q ≠ ((none : Option Char), n)))
          (counterItems bases)
          = List.filter (fun q => q.1.isSome) (counterItems bases) := by
        apply List.filter_congr
        intro p hp
        obtain ⟨pk, pn⟩ := p
        rcases counterItems_mem hp with ⟨hpk, hpc⟩
        cases pk with
        | none =>
          have hpn : pn = n := by rw [hpc, hn_eq]
          subst hpn
          simp
        | some x => simp
      have hitems2 : eraseEntry (counterItems bases) ((none : Option Char), n)
          = ((pyKeys bases).filter (fun k => k.isSome)).map
              (fun k => (k, pyCount k bases)) := by
        rw [nodup_eraseEntry_eq_filter hnodup, hcongr]
        simp only [counterItems]
        rw [filter_map_aux]
      rw [hitems2] at hq2 hmaxsnd
      have hproj := congrArg (Option.map Prod.fst) hq2
      simp only [Option.map_some'] at hproj
      simp only [firstMax] at hproj
      rw [counter_find?_snd] at hproj
      have hM2 : maxSnd (((pyKeys bases).filter (fun k => k.isSome)).map
          (fun k => (k, pyCount k bases))) = maxObs bases := by
        rw [hmaxsnd, hMeq]
      rw [hM2, find?_filter_aux, find?_pyKeys] at hproj
      have hfinal : bases.find?
          (fun b => b.isSome && decide (maxObs bases ≤ pyCount b bases))
          = some (some e) := hproj
      simp only [firstMaxBase]
      rw [hfinal]
  · refine ⟨[some 'A', some 'C'], [some 'C', some 'A'],
      List.Perm.swap _ _ _, ?_⟩
    decide

/-- Witness for C10: a two-way tie between A and C, first observed value A. -/
theorem C10_witness :
    ∃ e : Char, firstMaxBase [some 'A', none, some 'C'] = some e
      ∧ Vcm.most_common_base_of [some 'A', none, some 'C'] "N" 2
          = some (String.singleton e) :=
  (C10_tie_first_observed [some 'A', none, some 'C'] 2 (by decide)
    ⟨'A', 'C', by decide, by decide, by decide, by decide, by decide⟩).1

/-- The first-index maximum of four counts: the `freqs.index(max(freqs))`
selection of `get_max_base_freq` coincides with a first-match scan of the
letter/count pairs in the same order. -/
theorem fourMax_select (a c t g : Nat) :
    ∃ ch : Char,
      ((List.zip ['A', 'C', 'T', 'G'] [a, c, t, g]).find?
          (fun p => p.2 == max (max (max a c) t) g)).map Prod.fst = some ch
      ∧ (['A', 'C', 'T', 'G']).getD
          ([a, c, t, g].indexOf (max (max (max a c) t) g)) 'A' = ch := by
  set m := max (max (max a c) t) g with hm
  have hzip : List.zip ['A', 'C', 'T', 'G'] [a, c, t, g]
      = [('A', a), ('C', c), ('T', t), ('G', g)] := rfl
  rw [hzip]
  by_cases hA : a = m
  · refine ⟨'A', ?_, ?_⟩
    · rw [List.find?_cons_of_pos _ (by simpa using hA)]
      rfl
    · have hidx : [a, c, t, g].indexOf m = 0 := by
        rw [List.indexOf_cons]
        simp [beq_iff_eq.2 hA]
      rw [hidx]
      rfl
  · by_cases hC : c = m
    · refine ⟨'C', ?_, ?_⟩
      · rw [List.find?_cons_of_neg _ (by simpa using hA),
          List.find?_cons_of_pos _ (by simpa using hC)]
        rfl
      · have hidx : [a, c, t, g].indexOf m = 1 := by
          rw [List.indexOf_cons, List.indexOf_cons]
          simp [beq_eq_false_iff_ne.2 hA, beq_iff_eq.2 hC]
        rw [hidx]
        rfl
    · by_cases hT : t = m
      · refine ⟨'T', ?_, ?_⟩
        · rw [List.find?_cons_of_neg _ (by simpa using hA),
            List.find?_cons_of_neg _ (by simpa using hC),
            List.find?_cons_of_pos _ (by simpa using hT)]
          rfl
        · have hidx : [a, c, t, g].indexOf m = 2 := by
            rw [List.indexOf_cons, List.indexOf_cons, List.indexOf_cons]
            simp [beq_eq_false_iff_ne.2 hA, beq_eq_false_iff_ne.2 hC,
              beq_iff_eq.2 hT]
          rw [hidx]
          rfl
      · have hG : g = m := by
          have hor : a = m ∨ c = m ∨ t = m ∨ g = m := by
            rcases max_choice (max (max a c) t) g with h | h
            · rcases max_choice (max a c) t with h2 | h2
              · rcases max_choice a c with h3 | h3
                · exact Or.inl (by rw [hm, h, h2, h3])
                · exact Or.inr (Or.inl (by rw [hm, h, h2, h3]))
              · exact Or.inr (Or.inr (Or.inl (by rw [hm, h, h2])))
            · exact Or.inr (Or.inr (Or.inr (by rw [hm, h])))
          rcases hor with h | h | h | h
          · exact absurd h hA
          · exact absurd h hC
          · exact absurd h hT
          · exact h
        refine ⟨'G', ?_, ?_⟩
        · rw [List.find?_cons_of_neg _ (by simpa using hA),
            List.find?_cons_of_neg _ (by simpa using hC),
            List.find?_cons_of_neg _ (by simpa using hT),
            List.find?_cons_of_pos _ (by simpa using hG)]
          rfl
        · have hidx : [a, c, t, g].indexOf m = 3 := by
            rw [List.indexOf_cons, List.indexOf_cons, List.indexOf_cons,
              List.indexOf_cons]
            simp [beq_eq_false_iff_ne.2 hA, beq_eq_false_iff_ne.2 hC,
              beq_eq_false_iff_ne.2 hT, beq_iff_eq.2 hG]
          rw [hidx]
          rfl

/-- C4 (counterexample): the claim breaks ties "in favour of the
alphabetically first base", but the code scans in the fixed order
`A, C, T, G`.  On a row with a T/G tie (A=0, C=0, T=3, G=3, coverage 6,
thresholds 0) the Merge Engine returns "T", while the alphabetically first
maximal base is G. -/
theorem C4_counterexample :
    VffMerge.get_base ⟨"chr1", "100", "A", 0, 0, 3, 3, 6⟩ 0 0 = "T"
    ∧ VffMerge.alphaFirstMax ⟨"chr1", "100", "A", 0, 0, 3, 3, 6⟩ = some 'G'
    ∧ ("T" : String) ≠ "G" :=
  ⟨rfl, rfl, by decide⟩

/-- C4 (amended): the Merge Engine derives the per-cell symbol by selecting
the base with maximum count among A, C, T, G, breaking ties in favour of
the FIRST base in the fixed scan order `A, C, T, G` (not the alphabetical
order `A, C, G, T`), and overrides the result to "N" exactly when the
Coverage field is at most the minimum coverage or the winning count is at
most the minimum frequency. -/
theorem C4_merge_selection (v : VffMerge.VFFline) (mc mf : Nat) :
    VffMerge.get_base v mc mf
      = if v.Coverage ≤ mc ∨ max (max (max v.A v.C) v.T) v.G ≤ mf then "N"
        else ((VffMerge.scanFirstMax v).map String.singleton).getD "N" := by
  rcases fourMax_select v.A v.C v.T v.G with ⟨ch, hfind, hidx⟩
  have hscan : VffMerge.scanFirstMax v = some ch := by
    simp only [VffMerge.scanFirstMax]
    exact hfind
  have hmax : VffMerge.get_max_base_freq v
      = (ch, max (max (max v.A v.C) v.T) v.G) := by
    simp only [VffMerge.get_max_base_freq]
    rw [hidx]
  simp only [VffMerge.get_base, hmax]
  by_cases h1 : v.Coverage ≤ mc
  · simp [h1]
  · by_cases h2 : max (max (max v.A v.C) v.T) v.G ≤ mf
    · simp [h1, h2]
    · simp [h1, h2, hscan]

theorem encode_decode_aux (s : List Char)
    (h : ∀ ch ∈ s, ch ∈ ['A', 'C', 'T', 'G', 'N']) :
    ∃ bs, VffMerge.encode s = .ok bs ∧ VffMerge.decode bs = .ok s := by
  induction s with
  | nil => exact ⟨[], rfl, rfl⟩
  | cons ch t ih =>
    rcases ih (fun x hx => h x (List.mem_cons_of_mem _ hx)) with ⟨bs, he, hd⟩
    have hch := h ch (List.mem_cons_self _ _)
    simp only [List.mem_cons, List.mem_singleton, List.not_mem_nil,
      or_false] at hch
    rcases hch with rfl | rfl | rfl | rfl | rfl
    · exact ⟨[false, false, false] ++ bs,
        by simp [VffMerge.encode, VffMerge.get_encoding, he],
        by simp [VffMerge.decode, VffMerge.get_encoding, hd]⟩
    · exact ⟨[false, false, true] ++ bs,
        by simp [VffMerge.encode, VffMerge.get_encoding, he],
        by simp [VffMerge.decode, VffMerge.get_encoding, hd]⟩
    · exact ⟨[false, true, false] ++ bs,
        by simp [VffMerge.encode, VffMerge.get_encoding, he],
        by simp [VffMerge.decode, VffMerge.get_encoding, hd]⟩
    · exact ⟨[false, true, true] ++ bs,
        by simp [VffMerge.encode, VffMerge.get_encoding, he],
        by simp [VffMerge.decode, VffMerge.get_encoding, hd]⟩
    · exact ⟨[true, false, false] ++ bs,
        by simp [VffMerge.encode, VffMerge.get_encoding, he],
        by simp [VffMerge.decode, VffMerge.get_encoding, hd]⟩

/-- C7: encoding any symbol sequence over the alphabet {A,C,T,G,N} with the
fixed 3-bit 5-symbol code and decoding with the same code reproduces the
sequence exactly (for every length, in particular 0, 1 and 10,000). -/
theorem C7_encode_decode_roundtrip (s : List Char)
    (h : ∀ ch ∈ s, ch ∈ ['A', 'C', 'T', 'G', 'N']) :
    (VffMerge.encode s >>= VffMerge.decode) = .ok s := by
  rcases encode_decode_aux s h with ⟨bs, he, hd⟩
  rw [he]
  exact hd

/-- Witness for C7 on the concrete sequence `A, N, T`. -/
theorem C7_witness :
    (VffMerge.encode ['A', 'N', 'T'] >>= VffMerge.decode)
      = .ok ['A', 'N', 'T'] :=
  C7_encode_decode_roundtrip ['A', 'N', 'T'] (by decide)

theorem nextAll_some (seqs : List (List String))
    (h : ∀ s ∈ seqs, s ≠ []) :
    VffMerge.nextAll seqs
      = some (seqs.map (fun s => s.headD ""), seqs.map List.tail) := by
  induction seqs with
  | nil => rfl
  | cons s rest ih =>
    cases s with
    | nil => exact absurd rfl (h [] (List.mem_cons_self _ _))
    | cons x xs =>
      simp only [VffMerge.nextAll]
      rw [ih (fun u hu => h u (List.mem_cons_of_mem _ hu))]
      simp

theorem nextAll_none (seqs : List (List String))
    (h : ∃ s ∈ seqs, s = []) : VffMerge.nextAll seqs = none := by
  induction seqs with
  | nil =>
    rcases h with ⟨s, hs, _⟩
    simp at hs
  | cons s rest ih =>
    rcases h with ⟨s2, hs2, he⟩
    rcases List.mem_cons.1 hs2 with h1 | h1
    · have hs : s = [] := by rw [← h1, he]
      subst hs
      rfl
    · cases s with
      | nil => rfl
      | cons x xs =>
        simp only [VffMerge.nextAll]
        rw [ih ⟨s2, h1, he⟩]

theorem foldr_min_zero (l : List Nat) : l.foldr min 0 = 0 := by
  induction l with
  | nil => rfl
  | cons x t ih => simp [ih]

theorem foldr_min_zero_mem (l : List Nat) (n : Nat) (h : (0 : Nat) ∈ l) :
    l.foldr min n = 0 := by
  induction l with
  | nil => simp at h
  | cons x t ih =>
    rcases List.mem_cons.1 h with h1 | h1
    · simp [List.foldr_cons, ← h1]
    · simp [List.foldr_cons, ih h1]

theorem foldr_min_le (l : List Nat) (n x : Nat) (h : x ∈ l) :
    l.foldr min n ≤ x := by
  induction l with
  | nil => simp at h
  | cons y t ih =>
    rcases List.mem_cons.1 h with h1 | h1
    · rw [h1]
      exact Nat.min_le_left _ _
    · exact Nat.le_trans (Nat.min_le_right _ _) (ih h1)

theorem foldr_min_mem (l : List Nat) (n : Nat) :
    l.foldr min n = n ∨ l.foldr min n ∈ l := by
  induction l with
  | nil => exact Or.inl rfl
  | cons y t ih =>
    rcases min_choice y (t.foldr min n) with h | h
    · exact Or.inr (by rw [List.foldr_cons, h]; exact List.mem_cons_self _ _)
    · rcases ih with h2 | h2
      · exact Or.inl (by rw [List.foldr_cons, h, h2])
      · refine Or.inr ?_
        rw [List.foldr_cons, h]
        exact List.mem_cons_of_mem _ h2

theorem min_sub_one (a b : Nat) (h : 1 ≤ a) :
    min (a - 1) b + 1 = min a (b + 1) := by
  rcases Nat.le_total (a - 1) b with h2 | h2
  · rw [Nat.min_eq_left h2, Nat.min_eq_left (by omega)]
    omega
  · rw [Nat.min_eq_right h2, Nat.min_eq_right (by omega)]

theorem foldr_min_pred (ls : List Nat) (n : Nat) (h : ∀ x ∈ ls, 1 ≤ x) :
    (ls.map (fun x => x - 1)).foldr min n + 1 = ls.foldr min (n + 1) := by
  induction ls with
  | nil => rfl
  | cons x t ih =>
    have hx := h x (List.mem_cons_self _ _)
    have ht := ih (fun y hy => h y (List.mem_cons_of_mem _ hy))
    simp only [List.map_cons, List.foldr_cons]
    rw [min_sub_one _ _ hx, ht]

theorem write_rows_length (pairs : List (String × String)) :
    ∀ seqs : List (List String),
      (VffMerge.write_rows pairs seqs).length
        = (seqs.map List.length).foldr min pairs.length := by
  induction pairs with
  | nil =>
    intro seqs
    simp [VffMerge.write_rows, foldr_min_zero]
  | cons pr rest ih =>
    intro seqs
    obtain ⟨c, p⟩ := pr
    by_cases hall : ∀ s ∈ seqs, s ≠ []
    · simp only [VffMerge.write_rows]
      rw [nextAll_some seqs hall]
      simp only [List.length_cons]
      rw [ih (seqs.map List.tail)]
      have hmap : (seqs.map List.tail).map List.length
          = (seqs.map List.length).map (fun x => x - 1) := by
        simp only [List.map_map]
        apply List.map_congr_left
        intro s hs
        simp [List.length_tail]
      rw [hmap]
      have hge1 : ∀ x ∈ seqs.map List.length, 1 ≤ x := by
        intro x hx
        rcases List.mem_map.1 hx with ⟨s, hs, hlen⟩
        have hsne := hall s hs
        rw [← hlen]
        cases s with
        | nil => exact absurd rfl hsne
        | cons y ys => simp
      rw [foldr_min_pred (seqs.map List.length) rest.length hge1]
    · have hex : ∃ s ∈ seqs, s = [] := by
        push_neg at hall
        exact hall
      simp only [VffMerge.write_rows]
      rw [nextAll_none seqs hex]
      have h0 : (0 : Nat) ∈ seqs.map List.length := by
        rcases hex with ⟨s, hs, he⟩
        exact List.mem_map.2 ⟨s, hs, by rw [he]; rfl⟩
      rw [foldr_min_zero_mem _ _ h0]
      rfl

/-- C8: the merge loop emits one row per reference pair, reading one symbol
from every cell's sequence per row, and stops as soon as any sequence is
exhausted: since the reference pairs come from the first cell's own table,
the number of emitted rows is exactly the shortest per-cell sequence
length. -/
theorem C8_merge_truncation (pairs : List (String × String))
    (seqs : List (List String)) (hne : seqs ≠ [])
    (hlen : pairs.length = (seqs.headD []).length) :
    (VffMerge.write_rows pairs seqs).length
        = (seqs.map List.length).foldr min pairs.length
    ∧ (∀ s ∈ seqs, (VffMerge.write_rows pairs seqs).length ≤ s.length)
    ∧ (∃ s ∈ seqs, (VffMerge.write_rows pairs seqs).length = s.length) := by
  have hwl := write_rows_length pairs seqs
  refine ⟨hwl, ?_, ?_⟩
  · intro s hs
    rw [hwl]
    exact foldr_min_le _ _ _ (List.mem_map.2 ⟨s, hs, rfl⟩)
  · rw [hwl]
    rcases foldr_min_mem (seqs.map List.length) pairs.length with h | h
    · cases seqs with
      | nil => exact absurd rfl hne
      | cons s0 rest =>
        refine ⟨s0, List.mem_cons_self _ _, ?_⟩
        rw [h, hlen]
        rfl
    · rcases List.mem_map.1 h with ⟨s, hs, he⟩
      exact ⟨s, hs, he.symm⟩

/-- Witness for C8: per-cell sequences of lengths 5, 5 and 3 produce
exactly 3 merged rows. -/
theorem C8_witness :
    (VffMerge.write_rows
        [("c", "1"), ("c", "2"), ("c", "3"), ("c", "4"), ("c", "5")]
        [["A", "A", "A", "A", "A"], ["C", "C", "C", "C", "C"],
         ["G", "G", "G"]]).length = 3 := by
  have h := C8_merge_truncation
      [("c", "1"), ("c", "2"), ("c", "3"), ("c", "4"), ("c", "5")]
      [["A", "A", "A", "A", "A"], ["C", "C", "C", "C", "C"],
       ["G", "G", "G"]]
      (by simp) rfl
  rw [h.1]
  rfl

end PhyloRNA
